import Mathlib

/-!
Verification of the EDUGUI open-addressing hashmap
(`src/utils/data_structures/hashmap.c`).

The C code is shallowly embedded as executable Lean functions.  Modelling
conventions, each justified against the source:

* `struct hashmap_key` is a non-owning view of `size` bytes; its observable
  content is exactly that byte sequence, so a key is modelled as the list of
  viewed bytes (each `< 256`), with `size = bytes.length`.  The width of the
  integer types `ui_t`/`si_t` (typedefs that live outside this file) is
  modelled from the spec: they are the pointer-sized unsigned/signed machine
  words, taken to be 64 bits; machine arithmetic is `Nat` with explicit
  `% 2 ^ 64` where the C arithmetic can wrap.
* `addr_t` values are modelled as `Nat`, with `0` playing the role of `NULL`.
* A slot of the backing array (`const struct hashmap_pair *`) is an
  `Option hashmap_pair`; `none` is a `NULL` slot pointer.
* Undefined behaviour (a null-pointer dereference) and non-termination of the
  probe loop both make an operation return `none`: a `none` result means "the
  C execution does not reach a defined result here".
* `malloc`/`calloc` are taken to succeed except in the dedicated model of
  `hashmap_init`, where the two allocation outcomes are explicit parameters.
* The load-factor tests use `f64_t` constants 0.8 and 0.2.  For the grow test
  the C computes `(ui_t)(data_size * 0.8)`: for any power-of-two `data_size`
  (the only sizes the code ever produces) the double product is
  `data_size * 0.8` up to a relative error of about `1e-16` and is never an
  integer, so the truncated value is exactly `4 * data_size / 5` in `Nat`
  division.  Likewise `data_cnt < data_size * 0.2` is exactly
  `5 * data_cnt < data_size` for these sizes.
* The `int incri` probe step counter is modelled as an unbounded `Nat`.
* The `free_key` flags of `hashmap_find`/`hashmap_erase` and all `free` calls
  only concern memory reclamation and have no observable effect on the state
  modelled here.
-/

namespace EguiHashmap

/-- Width-64 machine word modulus for `ui_t` arithmetic. -/
def UWORD : Nat := 2 ^ 64

/-- Reinterpret a `ui_t` value (a `Nat` below `2 ^ 64`) as the signed `si_t`
value with the same 64-bit representation. -/
def uToS (x : Nat) : Int :=
  if x < 2 ^ 63 then (x : Int) else (x : Int) - 2 ^ 64

/-- Model of `struct hashmap_key` (hashmap.c lines 42-46): the byte sequence
the key views; the C `size` field is `bytes.length`. -/
structure hashmap_key where
  bytes : List Nat
deriving DecidableEq, Repr

/-- Model of `struct hashmap_pair` (hashmap.c lines 48-54): an immutable key
together with an `addr_t` value (`0` = `NULL`). -/
structure hashmap_pair where
  key : hashmap_key
  value : Nat
deriving DecidableEq, Repr

/-- Model of `struct hashmap` (hashmap.c lines 63-73).  The backing array
`data` carries its own length, so the C field `data_size` is
`data.length` (the two are kept equal by every code path).  The pluggable
`hash_func`/`probe_func`/`prime`/threshold fields always hold their
`hashmap_init` defaults in every execution the claims concern, so they are
fixed to those defaults rather than stored. -/
structure hashmap where
  data : List (Option hashmap_pair)
  data_cnt : Nat
deriving DecidableEq, Repr

/-- The C field `data_size`: the length of the backing array. -/
def hashmap.data_size (q : hashmap) : Nat := q.data.length

/-- Model of C `memcmp` restricted to buffers of the compared length: the
result is `0` for equal content, otherwise the (signed) difference of the
first differing bytes, whose sign is what `memcmp` guarantees. -/
def memcmpBytes : List Nat → List Nat → Int
  | a :: as, b :: bs => if a = b then memcmpBytes as bs else (a : Int) - (b : Int)
  | _, _ => 0

/-- Model of `hashmap_key_cmp` (hashmap.c lines 75-86) for non-null keys.
If the sizes differ the C returns the `ui_t` difference `key1->size -
key2->size` reinterpreted as `si_t` (wrapping subtraction); otherwise it
returns `memcmp` over `key1->size` bytes. -/
def hashmap_key_cmp (k1 k2 : hashmap_key) : Int :=
  if k1.bytes.length = k2.bytes.length then
    memcmpBytes k1.bytes k2.bytes
  else
    uToS ((k1.bytes.length % UWORD + (UWORD - k2.bytes.length % UWORD)) % UWORD)

/-- Model of `hashmap_default_hash_func` (hashmap.c lines 115-133):
polynomial accumulation `res = res * prime + byte` in `ui_t` arithmetic. -/
def hashmap_default_hash_func (key : hashmap_key) (prime : Nat) : Nat :=
  key.bytes.foldl (fun res b => (res * prime + b) % UWORD) 0

/-- One probe position qualifies as a stopping point when the slot is empty
or holds a key equal to the probed key (the negation of the `while`
condition at hashmap.c lines 107-108). -/
def probeStopB (data : List (Option hashmap_pair)) (i : Nat) (key : hashmap_key) : Bool :=
  match data.getD i none with
  | none => true
  | some pr => decide (hashmap_key_cmp pr.key key = 0)

/-- The loop of `hashmap_default_probe_func` (hashmap.c lines 106-112),
with explicit fuel: `none` means the loop has not stopped within `fuel`
inspected positions (the C loop would still be running). -/
def probeAux (data : List (Option hashmap_pair)) (m : Nat) (key : hashmap_key) :
    Nat → Nat → Nat → Option Nat
  | _, _, 0 => none
  | src, incri, fuel + 1 =>
    match data.getD src none with
    | none => some src
    | some pr =>
      if hashmap_key_cmp pr.key key = 0 then some src
      else probeAux data m key ((src + incri) % m) (incri + 1) fuel

/-- Model of `hashmap_default_probe_func` (hashmap.c lines 93-113) for a
non-null map.  The fuel `data.length` is exact for power-of-two capacities:
the probe sequence visits every slot exactly once in its first
`data.length` steps (proved below), so the C loop terminates iff this
returns `some`. -/
def hashmap_default_probe_func (q : hashmap) (src : Nat) (key : hashmap_key) : Option Nat :=
  probeAux q.data q.data.length key (src % q.data.length) 1 q.data.length

/-- Model of `hashmap_init` (hashmap.c lines 135-149) in the case both
`calloc` calls succeed: capacity 4, no entries. -/
def hashmap_init : hashmap :=
  { data := List.replicate 4 none, data_cnt := 0 }

/-- Raw result of `hashmap_init` when allocation outcomes are tracked: the
backing array pointer may be `NULL` (`data = none`). -/
structure hashmap_raw where
  data : Option (List (Option hashmap_pair))
  data_cnt : Nat
deriving DecidableEq, Repr

/-- Model of `hashmap_init` (hashmap.c lines 135-149) with explicit
allocation outcomes.  `structAlloc` is whether `calloc(1, sizeof(struct
hashmap))` succeeds, `dataAlloc` whether the backing-array `calloc`
succeeds.  The outer `Option` is definedness: when `structAlloc` fails the
very next statement `q->data_size = HASHMAP_DEFAULT_DATA_SIZE` dereferences
the null pointer (there is no check in the C), so no defined result exists;
`some none` would be "a NULL handle was returned", which never happens.
When only `dataAlloc` fails the function returns a non-null handle whose
`data` pointer is `NULL`. -/
def hashmap_init_alloc (structAlloc dataAlloc : Bool) : Option (Option hashmap_raw) :=
  match structAlloc with
  | false => none
  | true =>
    some (some { data := if dataAlloc then some (List.replicate 4 none) else none,
                 data_cnt := 0 })

/-- The loop of `hashmap_rehash` (hashmap.c lines 183-186), parameterised by
the insert routine it calls back into.  The C body is
`if(old[i]->value) hashmap_insert(q, old[i]);` with no null test on
`old[i]`: reaching a `NULL` slot dereferences it, so the model returns
`none` (undefined) there.  The status of the inner insert is discarded,
exactly as the C discards it. -/
def rehashGoF (ins : hashmap → hashmap_pair → Option (hashmap × Int)) :
    hashmap → List (Option hashmap_pair) → Option hashmap
  | q, [] => some q
  | _, none :: _ => none
  | q, some pr :: rest =>
    if pr.value ≠ 0 then
      match ins q pr with
      | none => none
      | some qs => rehashGoF ins qs.1 rest
    else rehashGoF ins q rest

/-- Model of `hashmap_rehash` (hashmap.c lines 167-189) when the `calloc` of
the new array succeeds: start from a zeroed table of `new_size` slots with
`data_cnt = 0` and run the migration loop over the old array. -/
def hashmap_rehash (ins : hashmap → hashmap_pair → Option (hashmap × Int))
    (new_size : Nat) (old : List (Option hashmap_pair)) : Option hashmap :=
  rehashGoF ins { data := List.replicate new_size none, data_cnt := 0 } old

/-- Model of `hashmap_grow` (hashmap.c lines 191-197): rehash into twice the
capacity. -/
def hashmap_grow (ins : hashmap → hashmap_pair → Option (hashmap × Int))
    (q : hashmap) : Option hashmap :=
  hashmap_rehash ins (2 * q.data.length) q.data

/-- Model of `hashmap_shrink` (hashmap.c lines 199-208): refuse below
capacity 4 (status 1, table untouched), otherwise rehash into half the
capacity. -/
def hashmap_shrink (ins : hashmap → hashmap_pair → Option (hashmap × Int))
    (q : hashmap) : Option hashmap :=
  if q.data.length ≤ 4 then some q
  else hashmap_rehash ins (q.data.length / 2) q.data

/-- The body of `hashmap_insert` (hashmap.c lines 210-232) for non-null
arguments, parameterised by the insert routine the triggered grow calls
back into.  The grow test `data_cnt >= (ui_t)(data_size * 0.8)` is the
`Nat` condition `4 * data_size / 5 ≤ data_cnt` (see the header comment);
the grow's return status is ignored by the C, but an undefined grow makes
the whole call undefined. -/
def insertStep (ins : hashmap → hashmap_pair → Option (hashmap × Int))
    (q : hashmap) (data : hashmap_pair) : Option (hashmap × Int) :=
  (if 4 * q.data.length / 5 ≤ q.data_cnt then hashmap_grow ins q else some q).bind
    (fun q1 =>
      (hashmap_default_probe_func q1 (hashmap_default_hash_func data.key 313) data.key).bind
        (fun judge_pos =>
          match q1.data.getD judge_pos none with
          | some _ => some (q1, 1)
          | none =>
            some ({ data := q1.data.set judge_pos (some data),
                    data_cnt := q1.data_cnt + 1 }, 0)))

/-- Fuelled mutual recursion `hashmap_insert` → `hashmap_grow` →
`hashmap_rehash` → `hashmap_insert`: each nesting level consumes one unit of
fuel.  `none` at fuel 0 only matters for recursion deeper than the fuel
supplied at top level. -/
def insertAux : Nat → hashmap → hashmap_pair → Option (hashmap × Int)
  | 0, _, _ => none
  | fuel + 1, q, data => insertStep (insertAux fuel) q data

/-- Model of `hashmap_insert` (hashmap.c lines 210-232) for non-null
arguments.  The fuel `data.length + 2` covers every execution the C can
complete: a nested grow during a migration needs `data_cnt ≥ 4 * new_size
/ 5` while a migration inserts at most `new_size / 2` (grow) entries, so
recursion never exceeds depth 2. -/
def hashmap_insert (q : hashmap) (data : hashmap_pair) : Option (hashmap × Int) :=
  insertAux (q.data.length + 2) q data

/-- Model of `hashmap_find` (hashmap.c lines 259-280) for non-null
arguments: probe, then return the slot's value, or `NULL` (`0`) for an
empty slot.  `none` means the probe loop does not terminate. -/
def hashmap_find (q : hashmap) (key : hashmap_key) : Option Nat :=
  match hashmap_default_probe_func q (hashmap_default_hash_func key 313) key with
  | none => none
  | some judge_pos =>
    match q.data.getD judge_pos none with
    | some pr => some pr.value
    | none => some 0

/-- Model of `hashmap_erase` (hashmap.c lines 282-308) for non-null
arguments: probe; on an occupied slot clear the whole slot pointer to
`NULL`, decrement the count, and shrink when `data_cnt < data_size * 0.2`
(the `Nat` condition `5 * data_cnt < data_size`); on an empty slot report
status 1. -/
def hashmap_erase (q : hashmap) (key : hashmap_key) : Option (hashmap × Int) :=
  match hashmap_default_probe_func q (hashmap_default_hash_func key 313) key with
  | none => none
  | some judge_pos =>
    match q.data.getD judge_pos none with
    | some _ =>
      let q1 : hashmap := { data := q.data.set judge_pos none, data_cnt := q.data_cnt - 1 }
      if 5 * q1.data_cnt < q1.data.length then
        match hashmap_shrink (insertAux (q.data.length + 2)) q1 with
        | none => none
        | some q2 => some (q2, 0)
      else some (q1, 0)
    | none => some (q, 1)

/-- One public operation on the map. -/
inductive HOp where
  | ins : hashmap_pair → HOp
  | fnd : hashmap_key → HOp
  | ers : hashmap_key → HOp

/-- Effect of one public operation on the state; `none` when the operation
has no defined result. -/
def hstep (q : hashmap) : HOp → Option hashmap
  | .ins p => (hashmap_insert q p).map Prod.fst
  | .fnd k => (hashmap_find q k).map (fun _ => q)
  | .ers k => (hashmap_erase q k).map Prod.fst

/-- Run a sequence of public operations. -/
def hrun (q : hashmap) : List HOp → Option hashmap
  | [] => some q
  | op :: ops =>
    match hstep q op with
    | none => none
    | some q' => hrun q' ops

/-- Number of occupied (non-`NULL`) slots of a backing array; the C field
`data_cnt` tracks exactly this quantity. -/
def countSomeSlots (l : List (Option hashmap_pair)) : Nat :=
  l.countP (fun s => s.isSome)

/-- Invariant of every state reachable from `hashmap_init` by defined runs
of the public operations: capacity is still 4 (every resize attempt from a
reachable state dereferences a null slot and so never completes),
`data_cnt` counts the occupied slots, and at most 3 slots are occupied. -/
def hInv (q : hashmap) : Prop :=
  q.data.length = 4 ∧ q.data_cnt = countSomeSlots q.data ∧ q.data_cnt ≤ 3

/-- Triangular numbers: `tri k` is the total probe displacement after `k`
misses, since the probe step grows by one after each miss
(`tri (k+1) = tri k + (k+1)`). -/
def tri : Nat → Nat
  | 0 => 0
  | k + 1 => tri k + (k + 1)

/-- The size-then-bytes order the spec attributes to the sign of
`hashmap_key_cmp`: shorter keys first, equal lengths ordered by the first
differing byte. -/
def keyPrecedes (k1 k2 : hashmap_key) : Prop :=
  k1.bytes.length < k2.bytes.length ∨
    (k1.bytes.length = k2.bytes.length ∧ List.Lex (· < ·) k1.bytes k2.bytes)

/-! ### Concrete scenario states

One-byte keys "a".."e" are the bytes 97..101; the default hash of a
one-byte key `[b]` is `b`, so modulo capacity 4 the keys "a" (97) and
"e" (101) collide on slot 1. -/

/-- The pair ("a", 1). -/
def aPair : hashmap_pair := ⟨⟨[97]⟩, 1⟩

/-- The pair ("b", 2). -/
def bPair : hashmap_pair := ⟨⟨[98]⟩, 2⟩

/-- The pair ("c", 3). -/
def cPair : hashmap_pair := ⟨⟨[99]⟩, 3⟩

/-- The pair ("d", 4). -/
def dPair : hashmap_pair := ⟨⟨[100]⟩, 4⟩

/-- The pair ("e", 2), whose key collides with "a" modulo capacity 4. -/
def ePair : hashmap_pair := ⟨⟨[101]⟩, 2⟩

/-- State after inserting ("a",1) into a fresh map. -/
def qA : hashmap := ⟨[none, some aPair, none, none], 1⟩

/-- State after inserting ("a",1) and ("b",2) into a fresh map. -/
def qAB : hashmap := ⟨[none, some aPair, some bPair, none], 2⟩

/-- State after inserting ("a",1), ("b",2), ("c",3) into a fresh map:
three of the four slots occupied. -/
def q3abc : hashmap := ⟨[none, some aPair, some bPair, some cPair], 3⟩

/-- State after inserting ("a",1), ("e",2) into a fresh map: "e" collided
with "a" on slot 1 and was probed on to slot 2. -/
def qAE : hashmap := ⟨[none, some aPair, some ePair, none], 2⟩

/-- State after additionally erasing "a" from `qAE`: slot 1 is a hole on
"e"'s probe path. -/
def qHole : hashmap := ⟨[none, none, some ePair, none], 1⟩

/-- State after inserting a second pair with key "e" into `qHole`: the
duplicate landed in the hole at slot 1. -/
def qDupE : hashmap := ⟨[none, some ⟨⟨[101]⟩, 7⟩, some ePair, none], 2⟩

/-! ### Helper lemmas -/

theorem memcmpBytes_self (l : List Nat) : memcmpBytes l l = 0 := by
  induction l with
  | nil => rfl
  | cons a as ih => simp [memcmpBytes, ih]

theorem hashmap_key_cmp_self (k : hashmap_key) : hashmap_key_cmp k k = 0 := by
  simp [hashmap_key_cmp, memcmpBytes_self]

theorem slot_getD_set_self {α : Type} (l : List α) (a d : α) :
    ∀ j, j < l.length → (l.set j a).getD j d = a := by
  induction l with
  | nil => intro j hj; simp at hj
  | cons x xs ih =>
    intro j hj
    cases j with
    | zero => rfl
    | succ j' => exact ih j' (by simpa using hj)

theorem slot_getD_set_ne {α : Type} (l : List α) (a d : α) :
    ∀ i j, i ≠ j → (l.set j a).getD i d = l.getD i d := by
  induction l with
  | nil => intro i j _; rfl
  | cons x xs ih =>
    intro i j hij
    cases j with
    | zero =>
      cases i with
      | zero => exact absurd rfl hij
      | succ i' => rfl
    | succ j' =>
      cases i with
      | zero => rfl
      | succ i' => exact ih i' j' (fun h => hij (by rw [h]))

theorem countSome_set_some (p : hashmap_pair) :
    ∀ (l : List (Option hashmap_pair)) (j : Nat), j < l.length → l.getD j none = none →
      countSomeSlots (l.set j (some p)) = countSomeSlots l + 1 := by
  intro l
  induction l with
  | nil => intro j hj _; simp at hj
  | cons x xs ih =>
    intro j hj hx
    cases j with
    | zero =>
      have hx0 : x = none := hx
      subst hx0
      simp [countSomeSlots, List.countP_cons]
    | succ j' =>
      have : countSomeSlots (xs.set j' (some p)) = countSomeSlots xs + 1 :=
        ih j' (by simpa using hj) hx
      simp only [List.set, countSomeSlots, List.countP_cons] at this ⊢
      omega

theorem countSome_set_none :
    ∀ (l : List (Option hashmap_pair)) (j : Nat) (pr : hashmap_pair),
      l.getD j none = some pr →
      countSomeSlots (l.set j none) + 1 = countSomeSlots l := by
  intro l
  induction l with
  | nil => intro j pr h; simp [List.getD] at h
  | cons x xs ih =>
    intro j pr hx
    cases j with
    | zero =>
      have hx0 : x = some pr := hx
      subst hx0
      simp [countSomeSlots, List.countP_cons]
    | succ j' =>
      have := ih j' pr hx
      simp only [List.set, countSomeSlots, List.countP_cons] at this ⊢
      omega

theorem none_mem_of_countSome_lt (l : List (Option hashmap_pair))
    (h : countSomeSlots l < l.length) : none ∈ l := by
  by_contra hn
  have hall : ∀ s ∈ l, (fun s : Option hashmap_pair => s.isSome) s = true := by
    intro s hs
    cases s with
    | none => exact absurd hs hn
    | some pr => rfl
  have := List.countP_eq_length.mpr hall
  rw [countSomeSlots] at h
  omega

theorem rehashGoF_none_mem (ins : hashmap → hashmap_pair → Option (hashmap × Int)) :
    ∀ (old : List (Option hashmap_pair)) (q : hashmap), none ∈ old →
      rehashGoF ins q old = none := by
  intro old
  induction old with
  | nil => intro q h; simp at h
  | cons s rest ih =>
    intro q h
    cases s with
    | none => rfl
    | some pr =>
      have hmem : none ∈ rest := by
        rcases List.mem_cons.mp h with h0 | h0
        · exact absurd h0.symm (by simp)
        · exact h0
      show rehashGoF ins q (some pr :: rest) = none
      rw [rehashGoF]
      split
      · cases hi : ins q pr with
        | none => rfl
        | some qs => exact ih qs.1 hmem
      · exact ih q hmem

theorem rehashGoF_length_pos (ins : hashmap → hashmap_pair → Option (hashmap × Int))
    (hins : ∀ q p r, ins q p = some r → 0 < q.data.length → 0 < r.1.data.length) :
    ∀ (old : List (Option hashmap_pair)) (q q' : hashmap),
      rehashGoF ins q old = some q' → 0 < q.data.length → 0 < q'.data.length := by
  intro old
  induction old with
  | nil =>
    intro q q' h hq
    have : q = q' := by simpa [rehashGoF] using h
    rw [← this]; exact hq
  | cons s rest ih =>
    intro q q' h hq
    cases s with
    | none => simp [rehashGoF] at h
    | some pr =>
      rw [rehashGoF] at h
      split at h
      · cases hi : ins q pr with
        | none => rw [hi] at h; simp at h
        | some qs =>
          rw [hi] at h
          exact ih qs.1 q' h (hins q pr qs hi hq)
      · exact ih q q' h hq

theorem insertAux_succ_eq (fuel : Nat) (q : hashmap) (p : hashmap_pair) :
    insertAux (fuel + 1) q p = insertStep (insertAux fuel) q p := rfl

theorem insertStep_cases (ins : hashmap → hashmap_pair → Option (hashmap × Int))
    (q : hashmap) (p : hashmap_pair) (r : hashmap × Int)
    (h : insertStep ins q p = some r) :
    ∃ q1, (if 4 * q.data.length / 5 ≤ q.data_cnt then hashmap_grow ins q else some q) = some q1 ∧
      ∃ j, hashmap_default_probe_func q1 (hashmap_default_hash_func p.key 313) p.key = some j ∧
        ((∃ pr, q1.data.getD j none = some pr ∧ r = (q1, 1)) ∨
          (q1.data.getD j none = none ∧
            r = ({ data := q1.data.set j (some p), data_cnt := q1.data_cnt + 1 }, 0))) := by
  rw [insertStep, Option.bind_eq_some] at h
  obtain ⟨q1, hq1, h⟩ := h
  rw [Option.bind_eq_some] at h
  obtain ⟨j, hj, h⟩ := h
  refine ⟨q1, hq1, j, hj, ?_⟩
  cases hslot : q1.data.getD j none with
  | none =>
    rw [hslot] at h
    right
    exact ⟨rfl, by simpa using h.symm⟩
  | some pr =>
    rw [hslot] at h
    left
    exact ⟨pr, rfl, by simpa using h.symm⟩

theorem insertAux_length_pos :
    ∀ (fuel : Nat) (q : hashmap) (p : hashmap_pair) (r : hashmap × Int),
      insertAux fuel q p = some r → 0 < q.data.length → 0 < r.1.data.length := by
  intro fuel
  induction fuel with
  | zero => intro q p r h; simp [insertAux] at h
  | succ f ih =>
    intro q p r h hq
    rw [insertAux_succ_eq] at h
    obtain ⟨q1, hq1, j, _, hcases⟩ := insertStep_cases _ _ _ _ h
    have hq1pos : 0 < q1.data.length := by
      by_cases hc : 4 * q.data.length / 5 ≤ q.data_cnt
      · rw [if_pos hc] at hq1
        rw [hashmap_grow, hashmap_rehash] at hq1
        refine rehashGoF_length_pos (insertAux f) ih q.data _ q1 hq1 ?_
        show 0 < (List.replicate (2 * q.data.length) (none : Option hashmap_pair)).length
        rw [List.length_replicate]
        omega
      · rw [if_neg hc] at hq1
        cases hq1; exact hq
    rcases hcases with ⟨pr, _, rfl⟩ | ⟨_, rfl⟩
    · exact hq1pos
    · simpa using hq1pos

theorem probeAux_lt (d : List (Option hashmap_pair)) (m : Nat) (key : hashmap_key) :
    ∀ (f src inc j : Nat), probeAux d m key src inc f = some j → src < m → j < m := by
  intro f
  induction f with
  | zero => intro src inc j h; simp [probeAux] at h
  | succ f ih =>
    intro src inc j h hs
    have hm : 0 < m := Nat.lt_of_le_of_lt (Nat.zero_le src) hs
    cases hd : d.getD src none with
    | none =>
      simp only [probeAux, hd] at h
      cases h; exact hs
    | some pr =>
      simp only [probeAux, hd] at h
      by_cases hcmp : hashmap_key_cmp pr.key key = 0
      · rw [if_pos hcmp] at h
        cases h; exact hs
      · rw [if_neg hcmp] at h
        exact ih _ _ _ h (Nat.mod_lt _ hm)

theorem probeAux_stop_occupied (d : List (Option hashmap_pair)) (m : Nat) (key : hashmap_key) :
    ∀ (f src inc j : Nat) (pr : hashmap_pair),
      probeAux d m key src inc f = some j → d.getD j none = some pr →
      hashmap_key_cmp pr.key key = 0 := by
  intro f
  induction f with
  | zero => intro src inc j pr h; simp [probeAux] at h
  | succ f ih =>
    intro src inc j pr h hj
    cases hd : d.getD src none with
    | none =>
      simp only [probeAux, hd] at h
      cases h
      rw [hj] at hd; cases hd
    | some pr' =>
      simp only [probeAux, hd] at h
      by_cases hcmp : hashmap_key_cmp pr'.key key = 0
      · rw [if_pos hcmp] at h
        cases h
        rw [hj] at hd
        cases hd
        exact hcmp
      · rw [if_neg hcmp] at h
        exact ih _ _ _ pr h hj

theorem probeAux_set (d : List (Option hashmap_pair)) (m : Nat) (p : hashmap_pair)
    (hlen : m = d.length) :
    ∀ (f src inc j : Nat), src < m → probeAux d m p.key src inc f = some j →
      d.getD j none = none →
      probeAux (d.set j (some p)) m p.key src inc f = some j := by
  intro f
  induction f with
  | zero => intro src inc j _ h; simp [probeAux] at h
  | succ f ih =>
    intro src inc j hs h hj
    have hm : 0 < m := Nat.lt_of_le_of_lt (Nat.zero_le src) hs
    cases hd : d.getD src none with
    | none =>
      simp only [probeAux, hd] at h
      cases h
      simp only [probeAux, slot_getD_set_self d (some p) none src (hlen ▸ hs)]
      simp [hashmap_key_cmp_self]
    | some pr =>
      simp only [probeAux, hd] at h
      by_cases hcmp : hashmap_key_cmp pr.key p.key = 0
      · rw [if_pos hcmp] at h
        cases h
        rw [hj] at hd; cases hd
      · rw [if_neg hcmp] at h
        have hne : src ≠ j := by
          intro hcontra
          rw [hcontra, hj] at hd
          cases hd
        simp only [probeAux, slot_getD_set_ne d (some p) none src j hne, hd]
        rw [if_neg hcmp]
        exact ih _ _ _ (Nat.mod_lt _ hm) h hj

/-! ### Claims settled by direct evaluation -/

/-- C1: the claim says every previously inserted, non-erased key is still
findable after a resize-triggering insert.  In fact no post-resize state
exists: inserting three distinct keys into a fresh map and then a fourth
triggers the grow (`data_cnt = 3 ≥ (ui_t)(4 * 0.8) = 3`), and the
migration loop of `hashmap_rehash` dereferences `old[i]->value` on the
`NULL` slot 0 without a null check, so the insert has no defined result. -/
theorem c1_resize_has_no_defined_result :
    hrun hashmap_init [.ins aPair, .ins bPair, .ins cPair] = some q3abc ∧
    4 * q3abc.data.length / 5 ≤ q3abc.data_cnt ∧
    hashmap_insert q3abc dPair = none := by
  decide

/-- C2: the claim says the migration loop reads `old[i]->value` only on
non-null slots.  On the reachable capacity-4 table holding "a","b","c",
slot 0 is `NULL`, yet the loop `if(old[i]->value)` reads through it on its
very first iteration: the grow invoked by the next insert has no defined
result. -/
theorem c2_migration_dereferences_null_slot :
    q3abc.data.getD 0 none = none ∧
    hashmap_grow (insertAux (q3abc.data.length + 1)) q3abc = none := by
  decide

/-- C5: the claim says capacity stays 4 through the first four inserts of
"a".."e" and the grow happens during the fifth.  The code truncates the
threshold `4 * 0.8 = 3.2` to `3` and compares with `>=`, so the grow is
already triggered by the fourth insert ("d") — and that grow dereferences
the `NULL` slot 0 during migration, so the scenario has no defined result
from the fourth insert on. -/
theorem c5_growth_scenario_diverges :
    hrun hashmap_init [.ins aPair] = some qA ∧ qA.data_size = 4 ∧
    hrun hashmap_init [.ins aPair, .ins bPair] = some qAB ∧ qAB.data_size = 4 ∧
    hrun hashmap_init [.ins aPair, .ins bPair, .ins cPair] = some q3abc ∧
    q3abc.data_size = 4 ∧
    hstep q3abc (.ins dPair) = none := by
  decide

/-- C8: the claim says erasing one key never makes a different, non-erased
key unfindable.  Insert "a" (value 1) then "e" (value 2): both hash to
slot 1, "e" is probed on to slot 2.  Erasing "a" clears slot 1 to `NULL`
(no tombstone), and `hashmap_find` for "e" then stops at the empty slot 1
and returns `NULL` (0), although ("e", 2) still sits in slot 2. -/
theorem c8_erase_unlinks_other_key :
    hrun hashmap_init [.ins aPair, .ins ePair] = some qAE ∧
    qAE.data.getD 2 none = some ePair ∧ ePair.value = 2 ∧
    hashmap_erase qAE ⟨[97]⟩ = some (qHole, 0) ∧
    qHole.data.getD 2 none = some ePair ∧
    hashmap_find qHole ⟨[101]⟩ = some 0 ∧ (0 : Nat) ≠ ePair.value := by
  decide

/-- C9: the claim says `hashmap_init` returns a null handle on allocation
failure and never dereferences the failed allocation.  The code checks
neither `calloc`: if the struct allocation fails the next statement writes
through the null pointer (no defined result, first two conjuncts); if only
the backing-array allocation fails, a non-null handle with a `NULL` `data`
pointer is returned (third conjunct) — a partially constructed map the
claimed handle check does not detect. -/
theorem c9_init_ignores_allocation_failure :
    hashmap_init_alloc false true = none ∧
    hashmap_init_alloc false false = none ∧
    hashmap_init_alloc true false = some (some ⟨none, 0⟩) ∧
    hashmap_init_alloc true true = some (some ⟨some hashmap_init.data, 0⟩) := by
  decide

/-- C4, counterexample: a pair whose key equals a present key can be
inserted with the success status, mutating the table.  After inserting
"a","e" and erasing "a", the key "e" is still present in slot 2, but the
probe for "e" now stops at the hole in slot 1, so inserting a second
pair with key "e" returns status 0 (success) and changes the table. -/
theorem c4_counterexample_duplicate_inserted :
    hrun hashmap_init [.ins aPair, .ins ePair, .ers ⟨[97]⟩] = some qHole ∧
    qHole.data.getD 2 none = some ePair ∧
    hashmap_key_cmp ePair.key ⟨[101]⟩ = 0 ∧
    hashmap_insert qHole ⟨⟨[101]⟩, 7⟩ = some (qDupE, 0) ∧
    qDupE ≠ qHole := by
  decide

/-- Helper for the C10 counterexample: the comparison of an empty key with
any key of size `2 ^ 63 + 1` wraps to the positive value `2 ^ 63 - 1`. -/
theorem key_cmp_size_wrap (k1 k2 : hashmap_key) (h1 : k1.bytes.length = 0)
    (h2 : k2.bytes.length = 2 ^ 63 + 1) :
    hashmap_key_cmp k1 k2 = 2 ^ 63 - 1 := by
  unfold hashmap_key_cmp
  rw [h1, h2]
  norm_num [uToS, UWORD]

/-- C10, counterexample: the sign of `hashmap_key_cmp` does not order by
size for all representable sizes.  For an empty key against a key of size
`2 ^ 63 + 1` the claim demands a negative result (first key shorter), but
the unsigned subtraction `key1->size - key2->size` wraps to `2 ^ 63 - 1`,
which reinterprets as the positive `si_t` value `2 ^ 63 - 1`. -/
theorem c10_counterexample_size_wraparound :
    (⟨[]⟩ : hashmap_key).bytes.length <
      (⟨List.replicate (2 ^ 63 + 1) 0⟩ : hashmap_key).bytes.length ∧
    0 < hashmap_key_cmp ⟨[]⟩ ⟨List.replicate (2 ^ 63 + 1) 0⟩ := by
  have hlen : (⟨List.replicate (2 ^ 63 + 1) 0⟩ : hashmap_key).bytes.length = 2 ^ 63 + 1 :=
    List.length_replicate _ _
  constructor
  · rw [hlen]
    norm_num
  · rw [key_cmp_size_wrap ⟨[]⟩ ⟨List.replicate (2 ^ 63 + 1) 0⟩ List.length_nil hlen]
    norm_num

/-! ### C3: insert followed by find returns the inserted value -/

/-- C3: on any valid map state (non-empty backing array), if
`hashmap_insert` of a pair with a non-`NULL` value completes with the
success status 0, then `hashmap_find` with (a key of equal byte content
and length as) the pair's key returns the pair's value.  In this model a
key is its byte content, so content-equal keys are equal terms. -/
theorem c3_insert_then_find (q q' : hashmap) (p : hashmap_pair)
    (hlen : 0 < q.data.length) (_hv : p.value ≠ 0)
    (hins : hashmap_insert q p = some (q', 0)) :
    hashmap_find q' p.key = some p.value := by
  have hins' : insertStep (insertAux (q.data.length + 1)) q p = some (q', 0) := hins
  obtain ⟨q1, hq1, j, hp, hcases⟩ := insertStep_cases _ _ _ _ hins'
  have hq1pos : 0 < q1.data.length := by
    by_cases hc : 4 * q.data.length / 5 ≤ q.data_cnt
    · rw [if_pos hc] at hq1
      rw [hashmap_grow, hashmap_rehash] at hq1
      refine rehashGoF_length_pos (insertAux (q.data.length + 1))
        (fun q0 p0 r0 h0 => insertAux_length_pos (q.data.length + 1) q0 p0 r0 h0)
        q.data _ q1 hq1 ?_
      show 0 < (List.replicate (2 * q.data.length) (none : Option hashmap_pair)).length
      rw [List.length_replicate]
      omega
    · rw [if_neg hc] at hq1
      cases hq1
      exact hlen
  rcases hcases with ⟨pr, _, hr1⟩ | ⟨hslot, hr0⟩
  · exact absurd (congrArg Prod.snd hr1) (by norm_num)
  · have hq' : q' = { data := q1.data.set j (some p), data_cnt := q1.data_cnt + 1 } :=
      congrArg Prod.fst hr0
    rw [hashmap_default_probe_func] at hp
    have hstart : hashmap_default_hash_func p.key 313 % q1.data.length < q1.data.length :=
      Nat.mod_lt _ hq1pos
    have hjlt : j < q1.data.length := probeAux_lt _ _ _ _ _ _ _ hp hstart
    have hstab := probeAux_set q1.data q1.data.length p rfl q1.data.length
      (hashmap_default_hash_func p.key 313 % q1.data.length) 1 j hstart hp hslot
    rw [hq', hashmap_find, hashmap_default_probe_func]
    simp only [List.length_set]
    rw [hstab]
    simp only [slot_getD_set_self q1.data (some p) none j hjlt]

/-! ### C4: duplicate insertion -/

/-- C4, amended: if the insert does not first trigger a grow
(`data_cnt` below the truncated grow threshold) and the probe for the
pair's key resolves to an occupied slot — which by the probe's stopping
condition necessarily holds a key equal to the pair's key — then
`hashmap_insert` returns the status 1, distinct from the success status 0
and the invalid-argument sentinel -1, and the table is unchanged.  (The
unamended claim fails in two ways: a triggered grow mutates the table
before the duplicate check, and after erase has punched a hole into the
probe path a pair with an equal key can be inserted with status 0, see
the counterexample.) -/
theorem c4_amended_duplicate_rejected (q : hashmap) (p : hashmap_pair) (j : Nat)
    (hng : ¬ 4 * q.data.length / 5 ≤ q.data_cnt)
    (hpr : hashmap_default_probe_func q (hashmap_default_hash_func p.key 313) p.key = some j)
    (hocc : (q.data.getD j none).isSome = true) :
    hashmap_insert q p = some (q, 1) ∧
      (∃ pr, q.data.getD j none = some pr ∧ hashmap_key_cmp pr.key p.key = 0) ∧
      (1 : Int) ≠ 0 ∧ (1 : Int) ≠ -1 := by
  obtain ⟨pr, hpr2⟩ := Option.isSome_iff_exists.mp hocc
  have hcmp : hashmap_key_cmp pr.key p.key = 0 := by
    rw [hashmap_default_probe_func] at hpr
    exact probeAux_stop_occupied q.data q.data.length p.key q.data.length _ 1 j pr hpr hpr2
  refine ⟨?_, ⟨pr, hpr2, hcmp⟩, by norm_num, by norm_num⟩
  show insertStep (insertAux (q.data.length + 1)) q p = some (q, 1)
  rw [insertStep, if_neg hng, Option.some_bind, hpr, Option.some_bind, hpr2]

/-! ### C6: the capacity invariant -/

theorem hInv_init : hInv hashmap_init := by
  refine ⟨rfl, by decide, by decide⟩

theorem probe_some_lt (q : hashmap) (src : Nat) (key : hashmap_key) (j : Nat)
    (h : hashmap_default_probe_func q src key = some j) (hq : 0 < q.data.length) :
    j < q.data.length := by
  rw [hashmap_default_probe_func] at h
  exact probeAux_lt _ _ _ _ _ _ _ h (Nat.mod_lt _ hq)

theorem hstep_inv (q q' : hashmap) (op : HOp) (hi : hInv q) (h : hstep q op = some q') :
    hInv q' := by
  obtain ⟨h4, hcnt, hle⟩ := hi
  cases op with
  | fnd k =>
    simp only [hstep] at h
    rcases Option.map_eq_some'.mp h with ⟨v, _, hq'⟩
    rw [← hq']
    exact ⟨h4, hcnt, hle⟩
  | ins p =>
    simp only [hstep] at h
    rcases Option.map_eq_some'.mp h with ⟨r, hr, hq'⟩
    have hr' : insertStep (insertAux (q.data.length + 1)) q p = some r := hr
    obtain ⟨q1, hq1, j, hp, hcases⟩ := insertStep_cases _ _ _ _ hr'
    by_cases hc : 4 * q.data.length / 5 ≤ q.data_cnt
    · exfalso
      rw [if_pos hc, hashmap_grow, hashmap_rehash] at hq1
      have hmem : none ∈ q.data := by
        refine none_mem_of_countSome_lt q.data ?_
        rw [← hcnt, h4]
        omega
      rw [rehashGoF_none_mem _ _ _ hmem] at hq1
      exact Option.noConfusion hq1
    · rw [if_neg hc] at hq1
      cases hq1
      have hc3 : q.data_cnt ≤ 2 := by
        rw [h4] at hc
        omega
      rcases hcases with ⟨pr, hslot, hr1⟩ | ⟨hslot, hr0⟩
      · rw [hr1] at hq'
        rw [← hq']
        exact ⟨h4, hcnt, hle⟩
      · rw [hr0] at hq'
        have hjlt : j < q.data.length := probe_some_lt q _ p.key j hp (by omega)
        rw [← hq']
        refine ⟨?_, ?_, ?_⟩
        · show (q.data.set j (some p)).length = 4
          rw [List.length_set, h4]
        · show q.data_cnt + 1 = countSomeSlots (q.data.set j (some p))
          rw [countSome_set_some p q.data j hjlt hslot, hcnt]
        · show q.data_cnt + 1 ≤ 3
          omega
  | ers k =>
    simp only [hstep] at h
    rcases Option.map_eq_some'.mp h with ⟨r, hr, hq'⟩
    cases hpk : hashmap_default_probe_func q (hashmap_default_hash_func k 313) k with
    | none =>
      simp only [hashmap_erase, hpk] at hr
      exact Option.noConfusion hr
    | some j =>
      simp only [hashmap_erase, hpk] at hr
      cases hslot : q.data.getD j none with
      | none =>
        simp only [hslot] at hr
        cases hr
        rw [← hq']
        exact ⟨h4, hcnt, hle⟩
      | some pr =>
        simp only [hslot] at hr
        have hcnt1 : countSomeSlots (q.data.set j none) + 1 = countSomeSlots q.data :=
          countSome_set_none q.data j pr hslot
        have hinv1 : hInv { data := q.data.set j none, data_cnt := q.data_cnt - 1 } := by
          refine ⟨by rw [List.length_set, h4], ?_, ?_⟩
          · show q.data_cnt - 1 = countSomeSlots (q.data.set j none)
            omega
          · show q.data_cnt - 1 ≤ 3
            omega
        by_cases hsh : 5 * (q.data_cnt - 1) < (q.data.set j none).length
        · rw [if_pos hsh] at hr
          have hshr : hashmap_shrink (insertAux (q.data.length + 2))
              { data := q.data.set j none, data_cnt := q.data_cnt - 1 } =
              some { data := q.data.set j none, data_cnt := q.data_cnt - 1 } := by
            rw [hashmap_shrink, if_pos]
            show (q.data.set j none).length ≤ 4
            rw [List.length_set, h4]
          rw [hshr] at hr
          cases hr
          rw [← hq']
          exact hinv1
        · rw [if_neg hsh] at hr
          cases hr
          rw [← hq']
          exact hinv1

theorem hrun_inv : ∀ (ops : List HOp) (q q' : hashmap), hInv q → hrun q ops = some q' →
    hInv q' := by
  intro ops
  induction ops with
  | nil =>
    intro q q' hi h
    have : q = q' := by simpa [hrun] using h
    rw [← this]
    exact hi
  | cons op rest ih =>
    intro q q' hi h
    cases hs : hstep q op with
    | none =>
      simp only [hrun, hs] at h
      exact Option.noConfusion h
    | some q1 =>
      simp only [hrun, hs] at h
      exact ih q1 q' (hstep_inv q q1 op hi hs) h

/-- C6: after any defined run of public operations from a fresh map, the
capacity `data_size` is a power of two and at least 4.  (In fact it is
still exactly 4: every resize attempt from a reachable state dereferences
a null slot during migration and therefore never produces a state.) -/
theorem c6_capacity_always_pow2_ge4 (ops : List HOp) (q : hashmap)
    (h : hrun hashmap_init ops = some q) :
    (∃ n, q.data_size = 2 ^ n) ∧ 4 ≤ q.data_size := by
  have hi := hrun_inv ops hashmap_init q hInv_init h
  have h4 : q.data_size = 4 := hi.1
  exact ⟨⟨2, by rw [h4]; norm_num⟩, by rw [h4]⟩

/-- Witness for C6 at a concrete run. -/
theorem c6_capacity_always_pow2_ge4_witness :
    hrun hashmap_init [HOp.ins aPair, HOp.ers ⟨[97]⟩] = some ⟨List.replicate 4 none, 0⟩ ∧
      ((∃ n, (⟨List.replicate 4 none, 0⟩ : hashmap).data_size = 2 ^ n) ∧
        4 ≤ (⟨List.replicate 4 none, 0⟩ : hashmap).data_size) :=
  ⟨by decide, c6_capacity_always_pow2_ge4 [HOp.ins aPair, HOp.ers ⟨[97]⟩] _ (by decide)⟩

/-- Witness for C3 at a concrete input: inserting ("a",1) into a fresh map
succeeds and the immediate find returns 1. -/
theorem c3_insert_then_find_witness :
    0 < hashmap_init.data.length ∧ aPair.value ≠ 0 ∧
      hashmap_insert hashmap_init aPair = some (qA, 0) ∧
      hashmap_find qA aPair.key = some aPair.value :=
  ⟨by decide, by decide, by decide,
    c3_insert_then_find hashmap_init qA aPair (by decide) (by decide) (by decide)⟩

/-- Witness for C4 at a concrete input: with ("a",1) in slot 1 of `qA` and
no grow pending, inserting another pair with key "a" is rejected with
status 1 and the table unchanged. -/
theorem c4_amended_duplicate_rejected_witness :
    (¬ 4 * qA.data.length / 5 ≤ qA.data_cnt) ∧
      hashmap_default_probe_func qA (hashmap_default_hash_func (⟨⟨[97]⟩, 9⟩ : hashmap_pair).key 313)
        (⟨⟨[97]⟩, 9⟩ : hashmap_pair).key = some 1 ∧
      (qA.data.getD 1 none).isSome = true ∧
      hashmap_insert qA ⟨⟨[97]⟩, 9⟩ = some (qA, 1) :=
  ⟨by decide, by decide, by decide,
    (c4_amended_duplicate_rejected qA ⟨⟨[97]⟩, 9⟩ 1 (by decide) (by decide) (by decide)).1⟩


/-! ### C7: probe termination and full slot coverage -/

theorem two_mul_tri (k : Nat) : 2 * tri k = k * (k + 1) := by
  induction k with
  | zero => rfl
  | succ k ih =>
    rw [tri, Nat.mul_add, ih]
    ring

theorem tri_mono : ∀ {k j : Nat}, k ≤ j → tri k ≤ tri j := by
  intro k j h
  induction h with
  | refl => exact Nat.le_refl _
  | step _ ih => exact Nat.le_trans ih (Nat.le_add_right _ _)

theorem tri_add_eq (k d : Nat) : 2 * tri (k + d) = 2 * tri k + d * (2 * k + d + 1) := by
  induction d with
  | zero => simp
  | succ d ih =>
    rw [show k + (d + 1) = (k + d) + 1 from rfl, tri, Nat.mul_add, ih]
    ring

/-- Distinct indices below `2 ^ n` have distinct triangular numbers modulo
`2 ^ n`: the arithmetic core of the probe's full-coverage guarantee for
power-of-two capacities. -/
theorem tri_mod_inj_aux (n j k : Nat) (hk : k < j) (hj : j < 2 ^ n)
    (h : tri j % 2 ^ n = tri k % 2 ^ n) : False := by
  have hle : tri k ≤ tri j := tri_mono (Nat.le_of_lt hk)
  have hdvd : 2 ^ n ∣ tri j - tri k := (Nat.modEq_iff_dvd' hle).mp h.symm
  have hpow : 2 ^ (n + 1) = 2 * 2 ^ n := by
    rw [pow_succ]
    ring
  have h2 : 2 ^ (n + 1) ∣ 2 * (tri j - tri k) := by
    rw [hpow]
    exact mul_dvd_mul_left 2 hdvd
  have e1 := tri_add_eq k (j - k)
  rw [show k + (j - k) = j from by omega] at e1
  rw [show 2 * k + (j - k) + 1 = j + k + 1 from by omega] at e1
  have hds : 2 * (tri j - tri k) = (j - k) * (j + k + 1) := by omega
  rw [hds] at h2
  have hd_pos : 0 < j - k := by omega
  have hs_pos : 0 < j + k + 1 := by omega
  have hd_lt : j - k < 2 ^ (n + 1) := by omega
  have hs_lt : j + k + 1 < 2 ^ (n + 1) := by omega
  have hpar : (j - k) % 2 = 1 ∨ (j + k + 1) % 2 = 1 := by omega
  rcases hpar with hodd | hodd
  · have hco : Nat.Coprime 2 (j - k) :=
      (Nat.Prime.coprime_iff_not_dvd Nat.prime_two).mpr (by omega)
    have hco2 : Nat.Coprime (2 ^ (n + 1)) (j - k) := Nat.Coprime.pow_left _ hco
    have hdvds : 2 ^ (n + 1) ∣ j + k + 1 := hco2.dvd_of_dvd_mul_left h2
    have := Nat.le_of_dvd hs_pos hdvds
    omega
  · have hco : Nat.Coprime 2 (j + k + 1) :=
      (Nat.Prime.coprime_iff_not_dvd Nat.prime_two).mpr (by omega)
    have hco2 : Nat.Coprime (2 ^ (n + 1)) (j + k + 1) := Nat.Coprime.pow_left _ hco
    have hdvds : 2 ^ (n + 1) ∣ j - k := by
      refine hco2.dvd_of_dvd_mul_left ?_
      rw [Nat.mul_comm] at h2
      exact h2
    have := Nat.le_of_dvd hd_pos hdvds
    omega

/-- The triangular numbers of `0, 1, …, 2 ^ n - 1` cover every residue
modulo `2 ^ n`. -/
theorem tri_mod_surj (n r : Nat) (hr : r < 2 ^ n) :
    ∃ k, k < 2 ^ n ∧ tri k % 2 ^ n = r := by
  have hm : 0 < 2 ^ n := pow_pos (by norm_num) n
  have hinj : Function.Injective
      (fun k : Fin (2 ^ n) => (⟨tri k.val % 2 ^ n, Nat.mod_lt _ hm⟩ : Fin (2 ^ n))) := by
    intro a b hab
    have hval : tri a.val % 2 ^ n = tri b.val % 2 ^ n := congrArg Fin.val hab
    rcases Nat.lt_trichotomy a.val b.val with hlt | heq | hgt
    · exact (tri_mod_inj_aux n b.val a.val hlt b.isLt hval.symm).elim
    · exact Fin.ext heq
    · exact (tri_mod_inj_aux n a.val b.val hgt a.isLt hval).elim
  obtain ⟨k, hk⟩ := Finite.injective_iff_surjective.mp hinj ⟨r, hr⟩
  exact ⟨k.val, k.isLt, congrArg Fin.val hk⟩

/-- From any start below a power-of-two modulus, the probe positions
`(start + tri k) % 2 ^ n` for `k < 2 ^ n` reach every slot index. -/
theorem probe_positions_cover (n start t : Nat) (hstart : start < 2 ^ n) (ht : t < 2 ^ n) :
    ∃ k, k < 2 ^ n ∧ (start + tri k) % 2 ^ n = t := by
  have hm : 0 < 2 ^ n := pow_pos (by norm_num) n
  obtain ⟨k, hk, hmod⟩ := tri_mod_surj n ((t + 2 ^ n - start) % 2 ^ n) (Nat.mod_lt _ hm)
  refine ⟨k, hk, ?_⟩
  rw [Nat.add_mod, hmod, Nat.mod_eq_of_lt hstart, Nat.add_mod_mod]
  rw [show start + (t + 2 ^ n - start) = t + 2 ^ n from by omega]
  rw [Nat.add_mod_right]
  exact Nat.mod_eq_of_lt ht

/-- If some position reachable within `f` further steps is a stopping
point, the probe loop starting at displacement `tri k0` with step counter
`k0 + 1` terminates at a stopping point, and that point lies on the probe
sequence. -/
theorem probeAux_reaches (d : List (Option hashmap_pair)) (m : Nat) (key : hashmap_key)
    (start : Nat) :
    ∀ (f k0 : Nat),
      (∃ k, k0 ≤ k ∧ k < k0 + f ∧ probeStopB d ((start + tri k) % m) key = true) →
      ∃ j, probeAux d m key ((start + tri k0) % m) (k0 + 1) f = some j ∧
        probeStopB d j key = true ∧
        ∃ k, k0 ≤ k ∧ k < k0 + f ∧ j = (start + tri k) % m := by
  intro f
  induction f with
  | zero =>
    intro k0 hex
    obtain ⟨k, h1, h2, _⟩ := hex
    exact absurd h2 (by omega)
  | succ f ih =>
    intro k0 hex
    cases hd : d.getD ((start + tri k0) % m) none with
    | none =>
      refine ⟨(start + tri k0) % m, ?_, ?_, k0, Nat.le_refl _, by omega, rfl⟩
      · simp only [probeAux, hd]
      · simp only [probeStopB, hd]
    | some pr =>
      by_cases hcmp : hashmap_key_cmp pr.key key = 0
      · refine ⟨(start + tri k0) % m, ?_, ?_, k0, Nat.le_refl _, by omega, rfl⟩
        · simp only [probeAux, hd, if_pos hcmp]
        · simp only [probeStopB, hd]
          simp [hcmp]
      · have hstopfalse : probeStopB d ((start + tri k0) % m) key = false := by
          simp only [probeStopB, hd]
          simp [hcmp]
        obtain ⟨k, hk0, hkf, hkstop⟩ := hex
        have hkne : k ≠ k0 := by
          intro he
          rw [he, hstopfalse] at hkstop
          cases hkstop
        obtain ⟨j, hpj, hstopj, k', hk'1, hk'2, hk'3⟩ :=
          ih (k0 + 1) ⟨k, by omega, by omega, hkstop⟩
        refine ⟨j, ?_, hstopj, k', by omega, by omega, hk'3⟩
        simp only [probeAux, hd, if_neg hcmp]
        have harith : ((start + tri k0) % m + (k0 + 1)) % m =
            (start + tri (k0 + 1)) % m := by
          rw [Nat.mod_add_mod]
          have : start + tri k0 + (k0 + 1) = start + tri (k0 + 1) := by
            rw [tri]
            omega
          rw [this]
        rw [harith]
        exact hpj

/-- C7: for any map whose capacity is a power of two and whose slot array
(of that length) contains an empty slot or a slot with an equal key, the
default probe function terminates and returns such a slot, which lies on
the probe sequence `(start + tri k) % capacity`; moreover every slot index
is reached by that sequence within `capacity` steps from any start. -/
theorem c7_probe_terminates_and_covers (n : Nat) (q : hashmap) (key : hashmap_key)
    (src : Nat) (hpow : q.data.length = 2 ^ n)
    (hex : ∃ i, i < q.data.length ∧ probeStopB q.data i key = true) :
    (∃ j, hashmap_default_probe_func q src key = some j ∧
      probeStopB q.data j key = true ∧
      ∃ k, k < q.data.length ∧ j = (src % q.data.length + tri k) % q.data.length) ∧
    (∀ r, r < q.data.length → ∃ k, k < q.data.length ∧
      (src % q.data.length + tri k) % q.data.length = r) := by
  have hm : 0 < q.data.length := by
    rw [hpow]
    exact pow_pos (by norm_num) n
  have hstart : src % q.data.length < q.data.length := Nat.mod_lt _ hm
  constructor
  · obtain ⟨i, hi, hstopi⟩ := hex
    have hcov' := probe_positions_cover n (src % q.data.length) i
      (by rw [← hpow]; exact hstart) (by rw [← hpow]; exact hi)
    rw [← hpow] at hcov'
    obtain ⟨k, hk, hcov⟩ := hcov'
    obtain ⟨j, hpj, hstopj, k', h1, h2, h3⟩ :=
      probeAux_reaches q.data q.data.length key (src % q.data.length) q.data.length 0
        ⟨k, Nat.zero_le _, by omega, by rw [hcov]; exact hstopi⟩
    refine ⟨j, ?_, hstopj, k', by omega, h3⟩
    rw [hashmap_default_probe_func]
    have hzero : (src % q.data.length + tri 0) % q.data.length = src % q.data.length := by
      show (src % q.data.length + 0) % q.data.length = src % q.data.length
      rw [Nat.add_zero]
      exact Nat.mod_eq_of_lt hstart
    rw [← hzero]
    exact hpj
  · intro r hr
    have hcov' := probe_positions_cover n (src % q.data.length) r
      (by rw [← hpow]; exact hstart) (by rw [← hpow]; exact hr)
    rw [← hpow] at hcov'
    exact hcov'

/-- Witness for C7 at a concrete input: capacity `4 = 2 ^ 2`, table `qA`
(slot 1 occupied by "a"), probing for the absent key "b" from start 98. -/
theorem c7_probe_terminates_and_covers_witness :
    qA.data.length = 2 ^ 2 ∧
    (∃ i, i < qA.data.length ∧ probeStopB qA.data i ⟨[98]⟩ = true) ∧
    ((∃ j, hashmap_default_probe_func qA 98 ⟨[98]⟩ = some j ∧
      probeStopB qA.data j ⟨[98]⟩ = true ∧
      ∃ k, k < qA.data.length ∧ j = (98 % qA.data.length + tri k) % qA.data.length) ∧
    (∀ r, r < qA.data.length → ∃ k, k < qA.data.length ∧
      (98 % qA.data.length + tri k) % qA.data.length = r)) :=
  ⟨by decide, by decide,
    c7_probe_terminates_and_covers 2 qA ⟨[98]⟩ 98 (by decide) (by decide)⟩

/-! ### C10: the sign of the key comparison -/

theorem memcmpBytes_antisymm : ∀ (l1 l2 : List Nat), l1.length = l2.length →
    memcmpBytes l1 l2 = -memcmpBytes l2 l1 := by
  intro l1
  induction l1 with
  | nil =>
    intro l2 h
    cases l2 with
    | nil => simp [memcmpBytes]
    | cons b bs => simp at h
  | cons a as ih =>
    intro l2 h
    cases l2 with
    | nil => simp at h
    | cons b bs =>
      by_cases hab : a = b
      · subst hab
        rw [memcmpBytes, if_pos rfl, memcmpBytes, if_pos rfl]
        exact ih bs (by simpa using h)
      · rw [memcmpBytes, if_neg hab, memcmpBytes, if_neg (Ne.symm hab)]
        omega

theorem memcmpBytes_zero_iff : ∀ (l1 l2 : List Nat), l1.length = l2.length →
    (memcmpBytes l1 l2 = 0 ↔ l1 = l2) := by
  intro l1
  induction l1 with
  | nil =>
    intro l2 h
    cases l2 with
    | nil => simp [memcmpBytes]
    | cons b bs => simp at h
  | cons a as ih =>
    intro l2 h
    cases l2 with
    | nil => simp at h
    | cons b bs =>
      by_cases hab : a = b
      · subst hab
        rw [memcmpBytes, if_pos rfl]
        simp only [List.cons.injEq, true_and]
        exact ih bs (by simpa using h)
      · rw [memcmpBytes, if_neg hab]
        simp only [List.cons.injEq]
        constructor
        · intro hc
          exact absurd (by omega : a = b) hab
        · intro hc
          exact absurd hc.1 hab

theorem memcmpBytes_neg_iff : ∀ (l1 l2 : List Nat), l1.length = l2.length →
    (memcmpBytes l1 l2 < 0 ↔ List.Lex (· < ·) l1 l2) := by
  intro l1
  induction l1 with
  | nil =>
    intro l2 h
    cases l2 with
    | nil =>
      constructor
      · intro hc
        norm_num [memcmpBytes] at hc
      · intro hc
        cases hc
    | cons b bs => simp at h
  | cons a as ih =>
    intro l2 h
    cases l2 with
    | nil => simp at h
    | cons b bs =>
      by_cases hab : a = b
      · subst hab
        rw [memcmpBytes, if_pos rfl, ih bs (by simpa using h)]
        constructor
        · intro hc
          exact List.Lex.cons hc
        · intro hc
          cases hc with
          | cons hc' => exact hc'
          | rel hr => exact absurd hr (lt_irrefl a)
      · rw [memcmpBytes, if_neg hab]
        constructor
        · intro hc
          exact List.Lex.rel (by omega)
        · intro hc
          cases hc with
          | cons hc' => exact absurd rfl hab
          | rel hr => omega

/-- Helper for C10: when the sizes differ, both are representable and their
difference stays below `2 ^ 63`, the wrapped `ui_t` subtraction
reinterpreted as `si_t` equals the exact integer difference of the sizes. -/
theorem key_cmp_length_ne (k1 k2 : hashmap_key)
    (h1 : k1.bytes.length < 2 ^ 64) (h2 : k2.bytes.length < 2 ^ 64)
    (hne : k1.bytes.length ≠ k2.bytes.length)
    (hd1 : k1.bytes.length < k2.bytes.length + 2 ^ 63)
    (hd2 : k2.bytes.length < k1.bytes.length + 2 ^ 63) :
    hashmap_key_cmp k1 k2 = (k1.bytes.length : Int) - k2.bytes.length := by
  rw [hashmap_key_cmp, if_neg hne]
  have hA : k1.bytes.length % UWORD = k1.bytes.length := Nat.mod_eq_of_lt h1
  have hB : k2.bytes.length % UWORD = k2.bytes.length := Nat.mod_eq_of_lt h2
  rw [hA, hB]
  rcases Nat.lt_or_ge k1.bytes.length k2.bytes.length with hAB | hAB
  · have hval : (k1.bytes.length + (UWORD - k2.bytes.length)) % UWORD =
        2 ^ 64 - (k2.bytes.length - k1.bytes.length) := by
      rw [show UWORD = 2 ^ 64 from rfl]
      omega
    rw [hval, uToS,
      if_neg (by omega : ¬ 2 ^ 64 - (k2.bytes.length - k1.bytes.length) < 2 ^ 63)]
    omega
  · have hBA : k2.bytes.length < k1.bytes.length := by omega
    have hval : (k1.bytes.length + (UWORD - k2.bytes.length)) % UWORD =
        k1.bytes.length - k2.bytes.length := by
      rw [show UWORD = 2 ^ 64 from rfl]
      omega
    rw [hval, uToS,
      if_pos (by omega : k1.bytes.length - k2.bytes.length < 2 ^ 63)]
    omega

/-- C10, amended: for non-null keys of representable size (`< 2 ^ 64`),
`hashmap_key_cmp` returns 0 exactly on equal length and byte content, and
— provided additionally the size difference is below `2 ^ 63` — its sign
orders the keys by size first and then by byte content.  (For larger size
differences the unsigned subtraction of the sizes wraps and the sign is
inverted, see the counterexample.) -/
theorem c10_amended_key_cmp_orders (k1 k2 : hashmap_key)
    (h1 : k1.bytes.length < 2 ^ 64) (h2 : k2.bytes.length < 2 ^ 64)
    (hd1 : k1.bytes.length < k2.bytes.length + 2 ^ 63)
    (hd2 : k2.bytes.length < k1.bytes.length + 2 ^ 63) :
    (hashmap_key_cmp k1 k2 = 0 ↔ k1.bytes = k2.bytes) ∧
    (hashmap_key_cmp k1 k2 < 0 ↔ keyPrecedes k1 k2) ∧
    (0 < hashmap_key_cmp k1 k2 ↔ keyPrecedes k2 k1) := by
  by_cases hlen : k1.bytes.length = k2.bytes.length
  · have hcmp : hashmap_key_cmp k1 k2 = memcmpBytes k1.bytes k2.bytes := by
      rw [hashmap_key_cmp, if_pos hlen]
    refine ⟨?_, ?_, ?_⟩
    · rw [hcmp]
      exact memcmpBytes_zero_iff _ _ hlen
    · rw [hcmp, memcmpBytes_neg_iff _ _ hlen, keyPrecedes]
      constructor
      · intro h
        exact Or.inr ⟨hlen, h⟩
      · rintro (h | ⟨_, h⟩)
        · exact absurd hlen (by omega)
        · exact h
    · rw [hcmp, memcmpBytes_antisymm _ _ hlen, neg_pos,
        memcmpBytes_neg_iff _ _ hlen.symm, keyPrecedes]
      constructor
      · intro h
        exact Or.inr ⟨hlen.symm, h⟩
      · rintro (h | ⟨_, h⟩)
        · exact absurd hlen (by omega)
        · exact h
  · have hcmp := key_cmp_length_ne k1 k2 h1 h2 hlen hd1 hd2
    have hbytes : k1.bytes ≠ k2.bytes := fun h => hlen (by rw [h])
    refine ⟨?_, ?_, ?_⟩
    · rw [hcmp]
      constructor
      · intro h
        exact absurd (by omega : k1.bytes.length = k2.bytes.length) hlen
      · intro h
        exact absurd h hbytes
    · rw [hcmp, keyPrecedes]
      constructor
      · intro h
        exact Or.inl (by omega)
      · rintro (h | ⟨he, _⟩)
        · omega
        · exact absurd he hlen
    · rw [hcmp, keyPrecedes]
      constructor
      · intro h
        exact Or.inl (by omega)
      · rintro (h | ⟨he, _⟩)
        · omega
        · exact absurd he.symm hlen

/-- Witness for C10 at a concrete input: the one-byte keys `[1]` and `[2]`
have equal length, so the sign is decided by the byte comparison. -/
theorem c10_amended_key_cmp_orders_witness :
    ((⟨[1]⟩ : hashmap_key).bytes.length < 2 ^ 64) ∧
    ((⟨[2]⟩ : hashmap_key).bytes.length < 2 ^ 64) ∧
    ((hashmap_key_cmp ⟨[1]⟩ ⟨[2]⟩ = 0 ↔ (⟨[1]⟩ : hashmap_key).bytes = (⟨[2]⟩ : hashmap_key).bytes) ∧
      (hashmap_key_cmp ⟨[1]⟩ ⟨[2]⟩ < 0 ↔ keyPrecedes ⟨[1]⟩ ⟨[2]⟩) ∧
      (0 < hashmap_key_cmp ⟨[1]⟩ ⟨[2]⟩ ↔ keyPrecedes ⟨[2]⟩ ⟨[1]⟩)) :=
  ⟨by norm_num, by norm_num,
    c10_amended_key_cmp_orders ⟨[1]⟩ ⟨[2]⟩ (by norm_num) (by norm_num)
      (by norm_num) (by norm_num)⟩


end EguiHashmap
